import Mathlib

/-!
Verification of `scripts/build_crosswalk.py`: a shallow embedding of the
canonicalization engine (text normalizer, family classifier, row processor and
aggregator) together with proofs of the specification's claims about it.

Conventions of the embedding:
* Python strings are `String` / `List Char`.
* Confidence scores are embedded as natural numbers in hundredths (the source's
  two-decimal float literals scaled by 100: `0.99 ↦ 99`, `0.85 ↦ 85`, …).  This
  is exact: every confidence literal in the source has exactly two decimals,
  all comparisons are between such literals, and the output prints them with
  `"%.2f"`.
* The regular expressions used by the source are embedded by a small matcher
  covering exactly the constructs they use (literal characters, character
  classes, `?`, `\s*`, `\s+`, alternation, and `\b` word boundaries).
-/

namespace Crosswalk

/-- Python's `\s` class (ASCII part): space, tab, newline, carriage return,
vertical tab, form feed. -/
def isSpacePy (c : Char) : Bool :=
  [' ', '\t', '\n', '\r', '\x0b', '\x0c'].contains c

/-- Python's `\w` word-character class, restricted to the characters appearing
in this development: ASCII alphanumerics, underscore, and the accented letters
used by the rule patterns. -/
def isWordChar (c : Char) : Bool :=
  c.isAlphanum || c == '_' ||
    ['é', 'á', 'ü', 'è', 'ö', 'É', 'Á', 'Ü', 'È', 'Ö'].contains c

/-- Word-character test on an optional character; a string edge counts as a
non-word character, as in `re`'s `\b`. -/
def isWordO : Option Char → Bool
  | none => false
  | some c => isWordChar c

/-- A `\b` word boundary holds between two (optional) characters iff exactly
one side is a word character. -/
def bnd (a b : Option Char) : Bool := isWordO a != isWordO b

/-- Python's `str.lower`, restricted to ASCII plus the accented capitals
relevant to the rule patterns. -/
def pyLower (c : Char) : Char :=
  if c = 'É' then 'é'
  else if c = 'Á' then 'á'
  else if c = 'Ü' then 'ü'
  else if c = 'È' then 'è'
  else if c = 'Ö' then 'ö'
  else c.toLower

/-- Python's `str.upper` on the (ASCII) characters this program upper-cases. -/
def pyUpper (c : Char) : Char := c.toUpper

/-- One token of the regex bodies used by `FAMILY_RULES`: a literal character,
a character class, an optional character from a class (`?`), `\s*`, or `\s+`. -/
inductive Tok where
  | lit (c : Char)
  | one (cs : List Char)
  | opt (cs : List Char)
  | wsStar
  | wsPlus
deriving DecidableEq

/-- Fueled matcher: does an initial segment of `rest` match the token sequence
`ts`, followed by a `\b` word boundary?  `last` is the character immediately
before the unconsumed input (used for the boundary test).  The fuel only bounds
recursion depth; `matchToks` supplies enough of it for every path. -/
def matchToksF : Nat → List Tok → Option Char → List Char → Bool
  | 0, _, _, _ => false
  | _ + 1, [], last, rest => bnd last rest.head?
  | fuel + 1, Tok.lit c :: ts, _, rest =>
    match rest with
    | [] => false
    | d :: ds => c == d && matchToksF fuel ts (some d) ds
  | fuel + 1, Tok.one cs :: ts, _, rest =>
    match rest with
    | [] => false
    | d :: ds => cs.contains d && matchToksF fuel ts (some d) ds
  | fuel + 1, Tok.opt cs :: ts, last, rest =>
    matchToksF fuel ts last rest ||
      (match rest with
       | [] => false
       | d :: ds => cs.contains d && matchToksF fuel ts (some d) ds)
  | fuel + 1, Tok.wsStar :: ts, last, rest =>
    matchToksF fuel ts last rest ||
      (match rest with
       | [] => false
       | d :: ds => isSpacePy d && matchToksF fuel (Tok.wsStar :: ts) (some d) ds)
  | fuel + 1, Tok.wsPlus :: ts, _, rest =>
    match rest with
    | [] => false
    | d :: ds => isSpacePy d && matchToksF fuel (Tok.wsStar :: ts) (some d) ds

/-- Matcher with sufficient fuel: every recursive call of `matchToksF` strictly
decreases `rest.length + ts.length`, so `rest.length + ts.length + 1` steps
always suffice. -/
def matchToks (ts : List Tok) (last : Option Char) (rest : List Char) : Bool :=
  matchToksF (rest.length + ts.length + 1) ts last rest

/-- A pattern is an alternation of token sequences; each alternative is
implicitly bracketed by `\b … \b`, as in every pattern of `FAMILY_RULES`. -/
abbrev Pat := List (List Tok)

/-- Scan of `re.search`: try every start position.  `prev` is the character
before the current position (`none` at the string start). -/
def searchAux (alts : Pat) (prev : Option Char) (s : List Char) : Bool :=
  (alts.any fun toks => bnd prev s.head? && matchToks toks prev s) ||
    (match s with
     | [] => false
     | c :: cs => searchAux alts (some c) cs)

/-- `re.search(pattern, s) is not None`, for the `\b`-delimited alternation
patterns used by the classifier. -/
def reSearch (alts : Pat) (s : List Char) : Bool :=
  searchAux alts none s

/-- Token sequence of a literal word. -/
def wd (s : String) : List Tok := s.data.map Tok.lit

/-- `[-\s]?` -/
def hws : Tok := Tok.opt ['-', ' ', '\t', '\n', '\r', '\x0b', '\x0c']

/-- `'?` -/
def apos : Tok := Tok.opt ['\'']

/-- `s?` -/
def sOpt : Tok := Tok.opt ['s']

/-- Confidence scores in hundredths (see the file header). -/
abbrev Conf := Nat

/-- The ordered name-pattern table `FAMILY_RULES` of the source, one entry per
line of the Python list, in the same order.  Each regex is rendered as its list
of `\b…\b` alternatives. -/
def FAMILY_RULES : List (Pat × String) := [
  ([wd "sicilian"], "sicilian-defense"),
  ([wd "french"], "french-defense"),
  ([wd "caro" ++ [hws] ++ wd "kann"], "caro-kann-defense"),
  ([wd "scandinavian", wd "center" ++ [Tok.wsPlus] ++ wd "counter"], "scandinavian-defense"),
  ([wd "italian", wd "giuoco"], "italian-game"),
  ([wd "ruy" ++ [Tok.wsStar] ++ wd "lopez",
    wd "esp" ++ [Tok.one ['a', 'á']] ++ wd "nol" ++ [Tok.opt ['a']]], "ruy-lopez"),
  ([wd "vienna"], "vienna-game"),
  ([wd "scotch"], "scotch-game"),
  ([wd "two" ++ [Tok.wsPlus] ++ wd "knights"], "two-knights-defense"),
  ([wd "four" ++ [Tok.wsPlus] ++ wd "knights"], "four-knights-game"),
  ([wd "philidor"], "philidor-defense"),
  ([wd "petrov", wd "russian"], "petrov-defense"),
  ([wd "pirc", wd "modern" ++ [Tok.wsPlus] ++ wd "defense", wd "modern"], "pirc-modern"),
  ([wd "alekhin" ++ [Tok.opt ['e']],
    wd "alekhin" ++ [Tok.opt ['e'], apos] ++ wd "s",
    wd "alekhine", wd "alekhine", wd "alekhine", wd "alekhine"], "alekhine-defense"),
  ([wd "dutch"], "dutch-defense"),
  ([wd "benoni"], "benoni-defense"),
  ([wd "old" ++ [Tok.wsPlus] ++ wd "benoni"], "benoni-defense"),
  ([wd "modern" ++ [Tok.wsPlus] ++ wd "benoni"], "benoni-defense"),
  ([wd "benko", wd "volga"], "benko-gambit"),
  ([wd "gr" ++ [Tok.one ['u', 'ü']] ++ wd "nfeld"], "grunfeld-defense"),
  ([wd "nimzo" ++ [hws] ++ wd "indian"], "nimzo-indian-defense"),
  ([wd "bogo" ++ [hws] ++ wd "indian"], "bogo-indian-defense"),
  ([wd "queen" ++ [apos, sOpt, Tok.wsPlus] ++ wd "indian"], "queens-indian-defense"),
  ([wd "king" ++ [apos, sOpt, hws] ++ wd "indian"], "kings-indian-defense"),
  ([wd "slav"], "slav-defense"),
  ([wd "semi" ++ [hws] ++ wd "slav"], "semi-slav-defense"),
  ([wd "queen" ++ [apos, sOpt, Tok.wsPlus] ++ wd "gambit"], "queens-gambit"),
  ([wd "catalan"], "catalan-opening"),
  ([wd "english"], "english-opening"),
  ([wd "r" ++ [Tok.one ['é', 'e']] ++ wd "ti", wd "reti"], "reti-opening"),
  ([wd "bird" ++ [apos, sOpt]], "birds-opening"),
  ([wd "london"], "london-system"),
  ([wd "colle"], "colle-system"),
  ([wd "trompowsky"], "trompowsky-attack"),
  ([wd "veresov", wd "jobava"], "veresov-opening"),
  ([wd "king" ++ [apos, sOpt, Tok.wsPlus] ++ wd "gambit"], "kings-gambit"),
  ([wd "center" ++ [Tok.wsPlus] ++ wd "game"], "center-game"),
  ([wd "scandinavian"], "scandinavian-defense")]

/-- Fueled `str.replace`: replace every (leftmost, non-overlapping) occurrence
of `pat` by `rep`.  An empty `pat` never occurs in the source's calls and is
treated as "replace nothing".  The fuel only bounds recursion depth;
`replaceAll` supplies enough of it. -/
def replaceAllF : Nat → List Char → List Char → List Char → List Char
  | 0, _, _, s => s
  | fuel + 1, pat, rep, s =>
    if pat ≠ [] ∧ pat.isPrefixOf s then
      rep ++ replaceAllF fuel pat rep (s.drop pat.length)
    else
      match s with
      | [] => []
      | c :: cs => c :: replaceAllF fuel pat rep cs

/-- `str.replace` with sufficient fuel (each step of `replaceAllF` consumes at
least one character of `s`). -/
def replaceAll (pat rep s : List Char) : List Char :=
  replaceAllF (s.length + 1) pat rep s

/-- The `FAMILY_SYNONYMS` dictionary of the source, in insertion order. -/
def FAMILY_SYNONYMS : List (List Char × List Char) := [
  ("king s".data, "kings".data),
  ("queen s".data, "queens".data),
  ("bird s".data, "birds".data),
  ("ruy l pez".data, "ruy lopez".data),
  ("gr nfeld".data, "grunfeld".data)]

/-- The synonym-substitution loop at the top of `canonical_family`. -/
def applySynonyms (n : List Char) : List Char :=
  FAMILY_SYNONYMS.foldl (fun s p => replaceAll p.1 p.2 s) n

/-- The lowercased, synonym-substituted form `n` of a name used by the
name-pattern tier. -/
def nameNorm (name : String) : List Char :=
  applySynonyms (name.data.map pyLower)

/-- First-match lookup over the ordered rule table (the `for pattern, fam in
FAMILY_RULES` loop). -/
def findRule : List (Pat × String) → List Char → Option String
  | [], _ => none
  | (p, fam) :: rest, n => if reSearch p n then some fam else findRule rest n

/-- One alternative of an ECO band regex: a sequence of character classes to be
matched at the start of the code (`re.match` anchors at the start and allows
trailing characters). -/
def matchClasses : List (Char → Bool) → List Char → Bool
  | [], _ => true
  | _, [] => false
  | p :: ps, c :: cs => p c && matchClasses ps cs

/-- Single-character class. -/
def chc (c : Char) : Char → Bool := fun d => d == c

/-- Character range class `[lo-hi]`. -/
def rngc (lo hi : Char) : Char → Bool := fun d => lo ≤ d && d ≤ hi

/-- The class `[67-9]` of the `B0[67-9]` band: the digit 6 or the range 7–9. -/
def sixto9 : Char → Bool := fun d => d == '6' || rngc '7' '9' d

/-- `\d` -/
def dig : Char → Bool := Char.isDigit

/-- An ECO band: an alternation of class sequences, the family it maps to, and
its confidence. -/
abbrev EcoBand := List (List (Char → Bool)) × String × Conf

/-- `re.match(pattern, eco) is not None` for an ECO band pattern. -/
def ecoMatch (p : List (List (Char → Bool))) (eco : List Char) : Bool :=
  p.any fun alt => matchClasses alt eco

/-- The ordered ECO band table: the chain of `if re.match(...)` fallbacks in
`canonical_family`, one entry per `if`, in source order. -/
def ECO_BANDS : List EcoBand := [
  ([[chc 'B', rngc '2' '9', dig]], "sicilian-defense", 90),
  ([[chc 'C', chc '0', dig], [chc 'C', chc '1', dig]], "french-defense", 90),
  ([[chc 'B', chc '1', dig]], "caro-kann-defense", 85),
  ([[chc 'B', chc '0', sixto9]], "pirc-modern", 80),
  ([[chc 'B', chc '0', rngc '0' '5']], "open-games", 80),
  ([[chc 'A', chc '8', dig], [chc 'A', chc '9', dig]], "dutch-defense", 90),
  ([[chc 'A', chc '5', rngc '6' '9'], [chc 'A', chc '7', dig]], "benoni-defense", 85),
  ([[chc 'D', chc '0', dig], [chc 'D', chc '3', dig], [chc 'D', chc '4', dig],
    [chc 'D', chc '6', dig]], "queens-gambit", 85),
  ([[chc 'D', chc '1', dig]], "slav-defense", 85),
  ([[chc 'D', chc '2', dig], [chc 'D', chc '5', dig]], "queens-gambit", 80),
  ([[chc 'E', chc '0', rngc '0' '9']], "catalan-opening", 80),
  ([[chc 'E', chc '2', dig]], "nimzo-indian-defense", 85),
  ([[chc 'E', chc '3', dig]], "queens-indian-defense", 85),
  ([[chc 'E', chc '6', dig]], "kings-indian-defense", 85),
  ([[chc 'D', chc '7', dig], [chc 'D', chc '8', dig], [chc 'D', chc '9', dig]],
    "grunfeld-defense", 85)]

/-- First-match lookup over the ordered ECO band table. -/
def findBand : List EcoBand → List Char → Option (String × Conf)
  | [], _ => none
  | (p, r) :: rest, eco => if ecoMatch p eco then some r else findBand rest eco

/-- `str.strip()`: remove leading and trailing whitespace. -/
def stripWs (s : List Char) : List Char :=
  ((s.dropWhile isSpacePy).reverse.dropWhile isSpacePy).reverse

/-- `str.strip("-")`: remove leading and trailing hyphens. -/
def stripDash (s : List Char) : List Char :=
  ((s.dropWhile (· == '-')).reverse.dropWhile (· == '-')).reverse

/-- The normalized ECO code `(eco_code or "").upper().strip()`. -/
def ecoNorm (eco_code : String) : List Char :=
  stripWs (eco_code.data.map pyUpper)

/-- The ECO fallback section of `canonical_family`: first matching band wins,
otherwise the unresolved result `("", 0.0)`. -/
def ecoFallback (eco : List Char) : String × Conf :=
  match findBand ECO_BANDS eco with
  | some r => r
  | none => ("", 0)

/-- `canonical_family(name, eco_code)` of the source: lowercase and
synonym-substitute the name, try the ordered pattern table at confidence 0.99,
then the Dutch-Staunton special case at 0.95, then the ECO bands. -/
def canonical_family (name eco_code : String) : String × Conf :=
  match findRule FAMILY_RULES (nameNorm name) with
  | some fam => (fam, 99)
  | none =>
    if reSearch [wd "dutch"] (nameNorm name) && reSearch [wd "staunton"] (nameNorm name) then
      ("dutch-defense", 95)
    else
      ecoFallback (ecoNorm eco_code)

/-- Modelled from the spec: Unicode NFKD decomposition (the source calls the
standard library's `unicodedata.normalize("NFKD", ·)`), restricted to the
characters relevant to this development.  ASCII characters, `’` (U+2019) and
`` ` `` (U+0060) have no decomposition; `´` (U+00B4) decomposes to space plus
combining acute; the listed accented letters decompose to their base letter
plus a combining mark.  Every other character is left unchanged. -/
def nfkdChar (c : Char) : List Char :=
  if c = '´' then [' ', '́']
  else if c = 'é' then ['e', '́']
  else if c = 'è' then ['e', '̀']
  else if c = 'á' then ['a', '́']
  else if c = 'ü' then ['u', '̈']
  else if c = 'ö' then ['o', '̈']
  else if c = 'É' then ['E', '́']
  else if c = 'È' then ['E', '̀']
  else if c = 'Á' then ['A', '́']
  else if c = 'Ü' then ['U', '̈']
  else if c = 'Ö' then ['O', '̈']
  else [c]

/-- NFKD of a string, character by character. -/
def nfkdStr (s : List Char) : List Char := (s.map nfkdChar).flatten

/-- Fueled `re.sub(r"'s\b", "s", ·)`: replace each leftmost, non-overlapping
occurrence of `'s` that is followed by a word boundary.  The fuel only bounds
recursion depth; `subApos` supplies enough of it. -/
def subAposF : Nat → List Char → List Char
  | 0, s => s
  | fuel + 1, '\'' :: 's' :: rest =>
    if bnd (some 's') rest.head? then 's' :: subAposF fuel rest
    else '\'' :: subAposF fuel ('s' :: rest)
  | _ + 1, [] => []
  | fuel + 1, c :: cs => c :: subAposF fuel cs

/-- `re.sub(r"'s\b", "s", ·)` with sufficient fuel. -/
def subApos (s : List Char) : List Char := subAposF (s.length + 1) s

/-- Fueled `re.sub(r"[^A-Za-z0-9]+", "-", ·)`: replace each maximal run of
non-ASCII-alphanumeric characters by a single hyphen. -/
def subNonAlnumF : Nat → List Char → List Char
  | 0, s => s
  | _ + 1, [] => []
  | fuel + 1, c :: cs =>
    if c.isAlphanum then c :: subNonAlnumF fuel cs
    else '-' :: subNonAlnumF fuel (cs.dropWhile fun d => !d.isAlphanum)

/-- `re.sub(r"[^A-Za-z0-9]+", "-", ·)` with sufficient fuel. -/
def subNonAlnum (s : List Char) : List Char := subNonAlnumF (s.length + 1) s

/-- The slug derivation applied to an explicit family hint (the body of the
`if fam_hint and fam_hint.upper() != "#N/A":` branch of `main`, called
`slugify_hint` by the spec): NFKD, quote-glyph folding, possessive-`'s`
stripping, non-alphanumeric-run hyphenation of the stripped text, lowercasing,
hyphen trimming, and the `-s-` / `-gambit-gambit` artifact collapses. -/
def slugify_hint (hint : String) : String :=
  ⟨replaceAll "-gambit-gambit".data "-gambit".data
    (replaceAll "-s-".data "s-".data
      (replaceAll "-s-".data "s-".data
        (stripDash
          ((subNonAlnum
            (stripWs
              (subApos
                (replaceAll ['´'] ['\'']
                  (replaceAll ['`'] ['\'']
                    (replaceAll ['’'] ['\''] (nfkdStr hint.data))))))).map pyLower))))⟩

/-- Substring test (Python's `in` on strings). -/
def containsSub (pat : List Char) : List Char → Bool
  | [] => pat.isPrefixOf []
  | c :: cs => pat.isPrefixOf (c :: cs) || containsSub pat cs

/-- `acceptance_status(name)` of the source. -/
def acceptance_status (name : String) : String :=
  if containsSub "accepted".data (name.data.map pyLower) then "accepted"
  else if containsSub "declined".data (name.data.map pyLower) then "declined"
  else "neutral"

/-- Python's `str.upper` on a string. -/
def upperS (s : String) : String := ⟨s.data.map pyUpper⟩

/-- An input record, as extracted by the header-variant lookups at the top of
the per-row loop of `main` (fields already passed through `normalize_text` by
`read_rows`). -/
structure Row where
  name : String
  eco : String
  slug : String
  fam_hint : String
  source : String
deriving DecidableEq

/-- One output row of the crosswalk table.  `confidence` is kept as a number
(the source formats it as a two-decimal string on output) and `needs_review`
as a Boolean (the source writes the literals `"TRUE"` / `"FALSE"`). -/
structure CrosswalkRec where
  source : String
  alias_name : String
  alias_slug : String
  eco_code : String
  canonical_family_key : String
  acceptance_status : String
  confidence : Conf
  needs_review : Bool
  notes : String
deriving DecidableEq

/-- One output row of the review table. -/
structure ReviewRec where
  alias_name : String
  alias_slug : String
  eco_code : String
  reason : String
deriving DecidableEq

/-- The explicit-hint tier of the per-row loop: when the hint is present and
not the `#N/A` sentinel (case-insensitively), the slugified hint at confidence
0.90; otherwise the initial `("", 0.0)` state. -/
def hintTier (fam_hint : String) : String × Conf :=
  if fam_hint ≠ "" ∧ upperS fam_hint ≠ "#N/A" then (slugify_hint fam_hint, 90)
  else ("", 0)

/-- The resolved `(fam_key, conf)` of a row: the hint tier's result unless its
key is empty (`if not fam_key:`), in which case `canonical_family`. -/
def resolve (r : Row) : String × Conf :=
  if (hintTier r.fam_hint).1 = "" then canonical_family r.name r.eco
  else hintTier r.fam_hint

/-- `needs_review`: set exactly when the key is empty or the confidence is
below 0.85 (85 hundredths). -/
def needsReview (fk : String × Conf) : Bool :=
  fk.1 == "" || decide (fk.2 < 85)

/-- The notes annotation: attached from the raw lowercased name alone,
independently of the resolution tier. -/
def notesOf (name : String) : String :=
  if reSearch [wd "dutch"] (name.data.map pyLower) &&
      reSearch [wd "staunton"] (name.data.map pyLower) then
    "inferred staunton under dutch"
  else ""

/-- The body of the per-row loop of `main`: one crosswalk record, and a review
record exactly when `needs_review` is set. -/
def processRow (r : Row) : CrosswalkRec × Option ReviewRec :=
  (⟨r.source, r.name, r.slug, r.eco, (resolve r).1, acceptance_status r.name,
    (resolve r).2, needsReview (resolve r), notesOf r.name⟩,
   if needsReview (resolve r) then
     some ⟨r.name, r.slug, r.eco, "low_confidence_or_unmatched"⟩
   else none)

/-- The `families` dictionary update `families[fam_key] = families.get(fam_key, 0) + 1`,
on the dictionary viewed as its insertion-ordered association list. -/
def bumpFamily : List (String × Nat) → String → List (String × Nat)
  | [], k => [(k, 1)]
  | (k', n) :: rest, k =>
    if k' == k then (k', n + 1) :: rest else (k', n) :: bumpFamily rest k

/-- The accumulation loop of `main` over all rows: crosswalk list, review list
and family-count dictionary. -/
def buildAux : List Row → List CrosswalkRec → List ReviewRec → List (String × Nat) →
    List CrosswalkRec × List ReviewRec × List (String × Nat)
  | [], cw, rv, fams => (cw, rv, fams)
  | r :: rest, cw, rv, fams =>
    buildAux rest (cw ++ [(processRow r).1])
      (match (processRow r).2 with
       | some v => rv ++ [v]
       | none => rv)
      (if (processRow r).1.canonical_family_key == "" then fams
       else bumpFamily fams (processRow r).1.canonical_family_key)

/-- The three accumulated tables for a batch of input rows (the rows of all
source files, in file order then row order). -/
def buildTables (rows : List Row) :
    List CrosswalkRec × List ReviewRec × List (String × Nat) :=
  buildAux rows [] [] []

/-- The entries of the family dictionary carrying the key `k`. -/
def famEntries (fams : List (String × Nat)) (k : String) : List (String × Nat) :=
  fams.filter fun p => p.1 == k

/-- The number of crosswalk records carrying the key `k`. -/
def countKeyCW (l : List CrosswalkRec) (k : String) : Nat :=
  (l.filter fun c => c.canonical_family_key == k).length

/-- The confidence values a resolved (non-empty) key can carry. -/
abbrev confOK (q : Conf) : Prop := q = 80 ∨ q = 85 ∨ q = 90 ∨ q = 95 ∨ q = 99

/-- A successful rule lookup returns one of the table's families. -/
theorem findRule_mem : ∀ (rules : List (Pat × String)) (n : List Char) (fam : String),
    findRule rules n = some fam → fam ∈ rules.map Prod.snd
  | [], n, fam, h => by simp [findRule] at h
  | (p, f) :: rest, n, fam, h => by
    rw [findRule] at h
    split at h
    · simp only [Option.some.injEq] at h
      simp [h]
    · have := findRule_mem rest n fam h
      simp only [List.map_cons, List.mem_cons]
      exact Or.inr this

/-- If some rule of the table matches, the lookup succeeds. -/
theorem findRule_isSome : ∀ (rules : List (Pat × String)) (p : Pat × String) (n : List Char),
    p ∈ rules → reSearch p.1 n = true → (findRule rules n).isSome = true
  | [], p, n, hm, _ => by simp at hm
  | (q, f) :: rest, p, n, hm, hs => by
    rw [findRule]
    split
    · rfl
    · rename_i hq
      rcases List.mem_cons.mp hm with he | ht
      · rw [he] at hs
        exact absurd hs hq
      · exact findRule_isSome rest p n ht hs

/-- First match wins: if no rule of `pre` matches and `b` does, the lookup over
`pre ++ b :: post` returns `b`'s family. -/
theorem findRule_append : ∀ (pre : List (Pat × String)) (b : Pat × String)
    (post : List (Pat × String)) (n : List Char),
    (∀ q ∈ pre, reSearch q.1 n = false) → reSearch b.1 n = true →
    findRule (pre ++ b :: post) n = some b.2
  | [], b, post, n, _, hb => by
    obtain ⟨p, f⟩ := b
    rw [List.nil_append, findRule]
    simp only at hb
    rw [if_pos hb]
  | (q, f) :: pre, b, post, n, hpre, hb => by
    rw [List.cons_append, findRule]
    have hq : reSearch q n = false := hpre (q, f) (List.mem_cons_self _ _)
    rw [hq]
    simp only [Bool.false_eq_true, if_false]
    exact findRule_append pre b post n (fun x hx => hpre x (List.mem_cons_of_mem _ hx)) hb

/-- A successful band lookup returns one of the table's results. -/
theorem findBand_mem : ∀ (bands : List EcoBand) (eco : List Char) (r : String × Conf),
    findBand bands eco = some r → r ∈ bands.map Prod.snd
  | [], eco, r, h => by simp [findBand] at h
  | (p, x) :: rest, eco, r, h => by
    rw [findBand] at h
    split at h
    · simp only [Option.some.injEq] at h
      simp [h]
    · have := findBand_mem rest eco r h
      simp only [List.map_cons, List.mem_cons]
      exact Or.inr this

/-- First matching band wins over `pre ++ b :: post`. -/
theorem findBand_append : ∀ (pre : List EcoBand) (b : EcoBand) (post : List EcoBand)
    (eco : List Char),
    (∀ q ∈ pre, ecoMatch q.1 eco = false) → ecoMatch b.1 eco = true →
    findBand (pre ++ b :: post) eco = some b.2
  | [], b, post, eco, _, hb => by
    obtain ⟨p, x⟩ := b
    rw [List.nil_append, findBand]
    simp only at hb
    rw [if_pos hb]
  | (q, x) :: pre, b, post, eco, hpre, hb => by
    rw [List.cons_append, findBand]
    have hq : ecoMatch q eco = false := hpre (q, x) (List.mem_cons_self _ _)
    rw [hq]
    simp only [Bool.false_eq_true, if_false]
    exact findBand_append pre b post eco (fun y hy => hpre y (List.mem_cons_of_mem _ hy)) hb

/-- Every family of the name-pattern table is non-empty. -/
theorem famRules_nonempty : ∀ s ∈ FAMILY_RULES.map Prod.snd, s ≠ "" := by decide

/-- Every band result has a non-empty family and a tier confidence. -/
theorem ecoBands_ok : ∀ x ∈ ECO_BANDS.map Prod.snd, x.1 ≠ "" ∧ confOK x.2 := by decide

/-- `canonical_family` is either unresolved, or returns a non-empty key with a
tier confidence. -/
theorem cf_cases (name eco : String) :
    canonical_family name eco = ("", 0) ∨
      ((canonical_family name eco).1 ≠ "" ∧ confOK (canonical_family name eco).2) := by
  cases hfr : findRule FAMILY_RULES (nameNorm name) with
  | some fam =>
    have hcf : canonical_family name eco = (fam, 99) := by
      unfold canonical_family
      rw [hfr]
    rw [hcf]
    right
    refine ⟨famRules_nonempty fam (findRule_mem _ _ _ hfr), ?_⟩
    simp [confOK]
  | none =>
    by_cases hds : (reSearch [wd "dutch"] (nameNorm name) &&
        reSearch [wd "staunton"] (nameNorm name)) = true
    · have hcf : canonical_family name eco = ("dutch-defense", 95) := by
        unfold canonical_family
        rw [hfr]
        exact if_pos hds
      rw [hcf]
      right
      refine ⟨by simp, ?_⟩
      simp [confOK]
    · have hcf : canonical_family name eco = ecoFallback (ecoNorm eco) := by
        unfold canonical_family
        rw [hfr]
        exact if_neg hds
      rw [hcf]
      cases hfb : findBand ECO_BANDS (ecoNorm eco) with
      | some p =>
        have hef : ecoFallback (ecoNorm eco) = p := by
          unfold ecoFallback
          rw [hfb]
        rw [hef]
        right
        exact ecoBands_ok p (findBand_mem _ _ _ hfb)
      | none =>
        have hef : ecoFallback (ecoNorm eco) = ("", 0) := by
          unfold ecoFallback
          rw [hfb]
        rw [hef]
        left
        rfl

/-- The hint tier either leaves the initial unresolved state or yields
confidence 0.90. -/
theorem hintTier_cases (h : String) : hintTier h = ("", 0) ∨ (hintTier h).2 = 90 := by
  unfold hintTier
  split
  · right; rfl
  · left; rfl

/-- `resolve` is either unresolved, or returns a non-empty key with a tier
confidence. -/
theorem resolve_cases (r : Row) :
    resolve r = ("", 0) ∨ ((resolve r).1 ≠ "" ∧ confOK (resolve r).2) := by
  unfold resolve
  split
  · exact cf_cases r.name r.eco
  · rename_i hne
    right
    refine ⟨hne, ?_⟩
    rcases hintTier_cases r.fam_hint with h0 | h90
    · exact absurd (by rw [h0]) hne
    · rw [h90]
      simp [confOK]

/-- Incrementing key `k` turns a dictionary whose `k`-entries are consistent
with a count `cnt` into one whose single `k`-entry carries `cnt + 1`. -/
theorem bumpFamily_self (fams : List (String × Nat)) (k : String) :
    ∀ cnt : Nat, famEntries fams k = (if cnt = 0 then [] else [(k, cnt)]) →
    famEntries (bumpFamily fams k) k = [(k, cnt + 1)] := by
  induction fams with
  | nil =>
    intro cnt h
    have hcnt : cnt = 0 := by
      by_contra h0
      rw [if_neg h0] at h
      simp [famEntries] at h
    subst hcnt
    simp [bumpFamily, famEntries, List.filter_cons]
  | cons hd rest ih =>
    obtain ⟨k', n⟩ := hd
    intro cnt h
    rw [famEntries, List.filter_cons] at h
    by_cases hk : (k' == k) = true
    · rw [if_pos hk] at h
      have hcnt : cnt ≠ 0 := by
        intro h0
        rw [if_pos h0] at h
        exact List.cons_ne_nil _ _ h
      rw [if_neg hcnt] at h
      have hhead := (List.cons_eq_cons.mp h).1
      have htail := (List.cons_eq_cons.mp h).2
      simp only [Prod.mk.injEq] at hhead
      obtain ⟨hk1, hn1⟩ := hhead
      subst hk1
      subst hn1
      simp only [bumpFamily, if_pos hk]
      rw [famEntries, List.filter_cons, if_pos hk, htail]
    · rw [if_neg hk] at h
      simp only [bumpFamily, if_neg hk]
      rw [famEntries, List.filter_cons, if_neg hk]
      exact ih cnt h

/-- Incrementing a different key leaves the `k'`-entries unchanged. -/
theorem bumpFamily_other (k k' : String) (hne : (k == k') = false) :
    ∀ fams : List (String × Nat),
    famEntries (bumpFamily fams k) k' = famEntries fams k' := by
  intro fams
  induction fams with
  | nil =>
    simp [bumpFamily, famEntries, List.filter_cons, hne]
  | cons hd rest ih =>
    obtain ⟨a, n⟩ := hd
    by_cases ha : (a == k) = true
    · have hak : a = k := by simpa using ha
      have ha' : (a == k') = false := by
        rw [hak]
        exact hne
      simp only [bumpFamily, if_pos ha]
      rw [famEntries, List.filter_cons, if_neg (by simp [ha']),
        famEntries, List.filter_cons, if_neg (by simp [ha'])]
    · simp only [bumpFamily, if_neg ha]
      rw [famEntries, List.filter_cons, famEntries, List.filter_cons]
      by_cases ha' : (a == k') = true
      · rw [if_pos ha', if_pos ha']
        rw [famEntries] at ih
        rw [famEntries] at ih
        exact congrArg _ ih
      · rw [if_neg ha', if_neg ha']
        rw [famEntries] at ih
        rw [famEntries] at ih
        exact ih

/-- Appending one crosswalk record changes the key count by its indicator. -/
theorem countKeyCW_append (cw : List CrosswalkRec) (c : CrosswalkRec) (k : String) :
    countKeyCW (cw ++ [c]) k =
      countKeyCW cw k + (if (c.canonical_family_key == k) = true then 1 else 0) := by
  rw [countKeyCW, countKeyCW, List.filter_append, List.length_append]
  congr 1
  rw [List.filter_cons]
  by_cases hc : (c.canonical_family_key == k) = true
  · rw [if_pos hc, if_pos hc]
    rfl
  · rw [if_neg hc, if_neg hc]
    rfl

/-- One step of the accumulation loop preserves the family-count invariant. -/
theorem famEntries_step (fams : List (String × Nat)) (cw : List CrosswalkRec)
    (c : CrosswalkRec) (k : String) (hk : k ≠ "")
    (hinv : famEntries fams k = (if countKeyCW cw k = 0 then [] else [(k, countKeyCW cw k)])) :
    famEntries (if c.canonical_family_key == "" then fams
                else bumpFamily fams c.canonical_family_key) k =
      (if countKeyCW (cw ++ [c]) k = 0 then [] else [(k, countKeyCW (cw ++ [c]) k)]) := by
  rw [countKeyCW_append]
  by_cases hc0 : (c.canonical_family_key == "") = true
  · have heq : c.canonical_family_key = "" := by simpa using hc0
    have hck : (c.canonical_family_key == k) = false := by
      rw [heq]
      exact beq_false_of_ne fun h => hk h.symm
    rw [hck]
    simpa [hc0] using hinv
  · rw [if_neg (by simp [hc0])]
    by_cases hck : (c.canonical_family_key == k) = true
    · have heq : c.canonical_family_key = k := by simpa using hck
      rw [heq] at *
      rw [if_pos (beq_self_eq_true k)]
      rw [if_neg (Nat.succ_ne_zero _)]
      exact bumpFamily_self fams k (countKeyCW cw k) hinv
    · rw [Bool.not_eq_true] at hck
      rw [hck]
      simp only [Bool.false_eq_true, if_false, Nat.add_zero]
      rw [bumpFamily_other c.canonical_family_key k hck]
      exact hinv

/-- The accumulation loop maintains the family-count invariant. -/
theorem buildAux_familyInv : ∀ (rows : List Row) (cw : List CrosswalkRec)
    (rv : List ReviewRec) (fams : List (String × Nat)) (k : String), k ≠ "" →
    famEntries fams k = (if countKeyCW cw k = 0 then [] else [(k, countKeyCW cw k)]) →
    famEntries (buildAux rows cw rv fams).2.2 k =
      (if countKeyCW (buildAux rows cw rv fams).1 k = 0 then []
       else [(k, countKeyCW (buildAux rows cw rv fams).1 k)])
  | [], cw, rv, fams, k, _, hinv => by simpa [buildAux] using hinv
  | r :: rest, cw, rv, fams, k, hk, hinv => by
    rw [buildAux]
    exact buildAux_familyInv rest _ _ _ k hk (famEntries_step fams cw (processRow r).1 k hk hinv)

/-- The accumulation loop never creates an empty-key family entry. -/
theorem buildAux_noEmptyKey : ∀ (rows : List Row) (cw : List CrosswalkRec)
    (rv : List ReviewRec) (fams : List (String × Nat)),
    famEntries fams "" = [] → famEntries (buildAux rows cw rv fams).2.2 "" = []
  | [], cw, rv, fams, h => by simpa [buildAux] using h
  | r :: rest, cw, rv, fams, h => by
    rw [buildAux]
    apply buildAux_noEmptyKey rest
    by_cases hc0 : ((processRow r).1.canonical_family_key == "") = true
    · rw [if_pos hc0]
      exact h
    · rw [if_neg hc0]
      rw [Bool.not_eq_true] at hc0
      rw [bumpFamily_other _ _ hc0]
      exact h

/-- The loop emits exactly one crosswalk record per input row. -/
theorem buildAux_length : ∀ (rows : List Row) (cw : List CrosswalkRec)
    (rv : List ReviewRec) (fams : List (String × Nat)),
    (buildAux rows cw rv fams).1.length = cw.length + rows.length
  | [], cw, rv, fams => by simp [buildAux]
  | r :: rest, cw, rv, fams => by
    rw [buildAux, buildAux_length rest]
    simp
    omega

/-- The classification fields of a crosswalk record, by definition. -/
theorem processRow_fields (r : Row) :
    (processRow r).1.canonical_family_key = (resolve r).1 ∧
    (processRow r).1.confidence = (resolve r).2 ∧
    (processRow r).1.needs_review = needsReview (resolve r) ∧
    (processRow r).1.notes = notesOf r.name :=
  ⟨rfl, rfl, rfl, rfl⟩

/-- The review component of a processed row, by definition. -/
theorem processRow_review (r : Row) :
    (processRow r).2 = (if needsReview (resolve r) then
      some ⟨r.name, r.slug, r.eco, "low_confidence_or_unmatched"⟩ else none) := rfl

/-- C1: for every input record, the crosswalk record's `needs_review` flag is
true iff its `canonical_family_key` is empty or its confidence is strictly
below 0.85 (85 hundredths); being stated for every record, it depends on
nothing but those two fields. -/
theorem needs_review_iff (r : Row) :
    (processRow r).1.needs_review = true ↔
      ((processRow r).1.canonical_family_key = "" ∨ (processRow r).1.confidence < 85) := by
  rw [(processRow_fields r).1, (processRow_fields r).2.2.1, (processRow_fields r).2.1]
  rw [needsReview]
  simp [Bool.or_eq_true, beq_iff_eq, decide_eq_true_eq]

/-- C2: for every input record, the confidence is 0 exactly when the key is
empty, and in every case the confidence (in hundredths) is one of
0, 80, 85, 90, 95, 99. -/
theorem confidence_values (r : Row) :
    ((processRow r).1.confidence = 0 ↔ (processRow r).1.canonical_family_key = "") ∧
    ((processRow r).1.confidence = 0 ∨ (processRow r).1.confidence = 80 ∨
     (processRow r).1.confidence = 85 ∨ (processRow r).1.confidence = 90 ∨
     (processRow r).1.confidence = 95 ∨ (processRow r).1.confidence = 99) := by
  rw [(processRow_fields r).1, (processRow_fields r).2.1]
  rcases resolve_cases r with h | ⟨hne, hok⟩
  · rw [h]
    exact ⟨by simp, Or.inl rfl⟩
  · constructor
    · constructor
      · intro h0
        rcases hok with h | h | h | h | h <;> rw [h] at h0 <;> exact absurd h0 (by decide)
      · intro hempty
        exact absurd hempty hne
    · exact Or.inr hok

/-- C3: whenever the family hint is present, is not the `#N/A` sentinel
(case-insensitively), and slugifies to a non-empty key, the resolved key is
exactly that slug at confidence 0.90 — for every name and ECO code, which are
not consulted in this tier. -/
theorem hint_precedence (r : Row) (h1 : r.fam_hint ≠ "")
    (h2 : upperS r.fam_hint ≠ "#N/A") (h3 : slugify_hint r.fam_hint ≠ "") :
    (processRow r).1.canonical_family_key = slugify_hint r.fam_hint ∧
      (processRow r).1.confidence = 90 := by
  have hh : hintTier r.fam_hint = (slugify_hint r.fam_hint, 90) := by
    rw [hintTier, if_pos ⟨h1, h2⟩]
  have hr : resolve r = (slugify_hint r.fam_hint, 90) := by
    rw [resolve, hh]
    rw [if_neg h3]
  exact ⟨by rw [(processRow_fields r).1, hr], by rw [(processRow_fields r).2.1, hr]⟩

/-- Witness for C3 at a concrete record: hint "Sicilian Defense" with an
unrelated name and ECO code. -/
theorem hint_precedence_witness :
    (("Sicilian Defense" : String) ≠ "" ∧ upperS "Sicilian Defense" ≠ "#N/A" ∧
      slugify_hint "Sicilian Defense" ≠ "") ∧
    ((processRow ⟨"French Defense", "C00", "", "Sicilian Defense", "f"⟩).1.canonical_family_key =
        slugify_hint "Sicilian Defense" ∧
      (processRow ⟨"French Defense", "C00", "", "Sicilian Defense", "f"⟩).1.confidence = 90) :=
  ⟨⟨by decide, by decide, by decide⟩,
   hint_precedence ⟨"French Defense", "C00", "", "Sicilian Defense", "f"⟩
     (by decide) (by decide) (by decide)⟩

/-- C4 (counterexample): for the name "Dutch Staunton" — which contains both
words — the classifier returns confidence 0.99 from the generic `dutch`
pattern of the main list, not 0.95 as the claim states. -/
theorem dutch_staunton_claim_false :
    reSearch [wd "dutch"] (nameNorm "Dutch Staunton") = true ∧
    reSearch [wd "staunton"] (nameNorm "Dutch Staunton") = true ∧
    canonical_family "Dutch Staunton" "" = ("dutch-defense", 99) ∧
    (99 : Conf) ≠ 95 := by decide

/-- C4 (amended): whenever the lowercased, synonym-substituted name contains
the word "dutch" (in particular together with "staunton"), the main ordered
pattern list already matches, so the classifier returns confidence 0.99 and
the combined dutch-staunton 0.95 fallback never fires; with no earlier
pattern matching, the key is "dutch-defense" (e.g. the spec's own example). -/
theorem dutch_pattern_overrides :
    (∀ (name eco : String), reSearch [wd "dutch"] (nameNorm name) = true →
      (canonical_family name eco).2 = 99) ∧
    canonical_family "Dutch Defense: Staunton Gambit" "" = ("dutch-defense", 99) := by
  constructor
  · intro name eco h
    have hm : (([wd "dutch"], "dutch-defense") : Pat × String) ∈ FAMILY_RULES := by decide
    have hs : (findRule FAMILY_RULES (nameNorm name)).isSome = true :=
      findRule_isSome FAMILY_RULES ([wd "dutch"], "dutch-defense") (nameNorm name) hm h
    cases hfr : findRule FAMILY_RULES (nameNorm name) with
    | some fam =>
      have : canonical_family name eco = (fam, 99) := by
        unfold canonical_family
        rw [hfr]
      rw [this]
    | none =>
      rw [hfr] at hs
      exact absurd hs (by simp)
  · decide

/-- Witness for the amended C4 at a concrete input. -/
theorem dutch_pattern_overrides_witness :
    reSearch [wd "dutch"] (nameNorm "dutch gambit") = true ∧
    (canonical_family "dutch gambit" "Z00").2 = 99 :=
  ⟨by decide, dutch_pattern_overrides.1 "dutch gambit" "Z00" (by decide)⟩

/-- C5 (counterexample): a name containing "semi-slav" resolves via the
generic `slav` pattern (listed earlier) to `slav-defense`, not to the more
specific `semi-slav-defense`; likewise "modern benoni" resolves via the
generic `modern` alternative to `pirc-modern`, not `benoni-defense`. -/
theorem specific_patterns_claim_false :
    canonical_family "Semi-Slav Defense" "" = ("slav-defense", 99) ∧
    ("slav-defense" : String) ≠ "semi-slav-defense" ∧
    canonical_family "Modern Benoni" "" = ("pirc-modern", 99) ∧
    ("pirc-modern" : String) ≠ "benoni-defense" := by decide

/-- C5 (amended): the first pattern of the ordered list that matches wins, but
in the overlaps cited the generic pattern precedes the multi-word one, so the
generic family is returned: "semi-slav" yields `slav-defense` and
"modern benoni" yields `pirc-modern`. -/
theorem first_match_wins :
    (∀ (pre : List (Pat × String)) (b : Pat × String) (post : List (Pat × String))
        (n : List Char),
        FAMILY_RULES = pre ++ b :: post →
        (∀ q ∈ pre, reSearch q.1 n = false) →
        reSearch b.1 n = true →
        findRule FAMILY_RULES n = some b.2) ∧
    canonical_family "Semi-Slav Defense" "" = ("slav-defense", 99) ∧
    canonical_family "Modern Benoni" "" = ("pirc-modern", 99) :=
  ⟨fun pre b post n he h1 h2 => by
      rw [he]
      exact findRule_append pre b post n h1 h2,
   by decide, by decide⟩

/-- Witness for the amended C5: the head rule applied at its own word. -/
theorem first_match_wins_witness :
    findRule FAMILY_RULES "sicilian".data = some "sicilian-defense" :=
  first_match_wins.1 [] ([wd "sicilian"], "sicilian-defense") (FAMILY_RULES.drop 1)
    "sicilian".data rfl (by simp) (by decide)

/-- C6: when neither the hint tier nor the name tier (including the
dutch-staunton special case) produces a key, classification is the lookup of
the uppercased, trimmed ECO code in the ordered band table, first matching
band winning; in particular empty name, empty hint and ECO "B44" resolve to
`sicilian-defense` at confidence 0.90. -/
theorem eco_band_fallback :
    (∀ (name eco : String),
        findRule FAMILY_RULES (nameNorm name) = none →
        (reSearch [wd "dutch"] (nameNorm name) &&
          reSearch [wd "staunton"] (nameNorm name)) = false →
        canonical_family name eco = ecoFallback (ecoNorm eco)) ∧
    (∀ (pre : List EcoBand) (b : EcoBand) (post : List EcoBand) (eco : List Char),
        ECO_BANDS = pre ++ b :: post →
        (∀ q ∈ pre, ecoMatch q.1 eco = false) →
        ecoMatch b.1 eco = true →
        findBand ECO_BANDS eco = some b.2) ∧
    (processRow ⟨"", "B44", "", "", "f"⟩).1.canonical_family_key = "sicilian-defense" ∧
    (processRow ⟨"", "B44", "", "", "f"⟩).1.confidence = 90 := by
  refine ⟨?_, ?_, by decide, by decide⟩
  · intro name eco h1 h2
    unfold canonical_family
    rw [h1]
    exact if_neg (by rw [h2]; simp)
  · intro pre b post eco he h1 h2
    rw [he]
    exact findBand_append pre b post eco h1 h2

/-- Witness for C6: the first band applied to "B44", and the general fallback
equation applied at the concrete empty-name record. -/
theorem eco_band_fallback_witness :
    findBand ECO_BANDS "B44".data = some ("sicilian-defense", 90) ∧
    canonical_family "" "B44" = ecoFallback (ecoNorm "B44") :=
  ⟨eco_band_fallback.2.1 []
      ([[chc 'B', rngc '2' '9', dig]], "sicilian-defense", 90)
      (ECO_BANDS.drop 1) "B44".data rfl (by simp) (by decide),
   eco_band_fallback.1 "" "B44" (by decide) (by decide)⟩

/-- C7: the loop emits exactly one crosswalk record per input row and a
review record exactly when `needs_review` holds, always with reason
`low_confidence_or_unmatched`; the record with name "random unclassifiable
string", no hint and ECO "Z99" resolves unresolved (empty key, confidence 0,
`needs_review` true) and appears in the review table with that reason. -/
theorem review_emission :
    (∀ rows : List Row, (buildTables rows).1.length = rows.length) ∧
    (∀ r : Row, ((processRow r).2).isSome = (processRow r).1.needs_review) ∧
    (∀ (r : Row) (v : ReviewRec), (processRow r).2 = some v →
        v.reason = "low_confidence_or_unmatched") ∧
    (processRow ⟨"random unclassifiable string", "Z99", "", "", "f"⟩).1.canonical_family_key
      = "" ∧
    (processRow ⟨"random unclassifiable string", "Z99", "", "", "f"⟩).1.confidence = 0 ∧
    (processRow ⟨"random unclassifiable string", "Z99", "", "", "f"⟩).1.needs_review = true ∧
    (buildTables [⟨"random unclassifiable string", "Z99", "", "", "f"⟩]).2.1 =
      [⟨"random unclassifiable string", "", "Z99", "low_confidence_or_unmatched"⟩] := by
  refine ⟨?_, ?_, ?_, by decide, by decide, by decide, by decide⟩
  · intro rows
    have := buildAux_length rows [] [] []
    simpa [buildTables] using this
  · intro r
    rw [processRow_review, (processRow_fields r).2.2.1]
    cases hn : needsReview (resolve r) with
    | false => rfl
    | true => rfl
  · intro r v hv
    rw [processRow_review] at hv
    by_cases hn : needsReview (resolve r) = true
    · rw [if_pos hn] at hv
      injection hv with hv
      rw [← hv]
    · rw [if_neg hn] at hv
      exact Option.noConfusion hv

/-- Witness for C7 at the concrete review record its loop emits. -/
theorem review_emission_witness :
    ReviewRec.reason
        ⟨"random unclassifiable string", "", "Z99", "low_confidence_or_unmatched"⟩ =
      "low_confidence_or_unmatched" :=
  review_emission.2.2.1 ⟨"random unclassifiable string", "Z99", "", "", "f"⟩
    ⟨"random unclassifiable string", "", "Z99", "low_confidence_or_unmatched"⟩ (by decide)

/-- C8: for every non-empty key, the family dictionary holds exactly one entry
for that key, counting exactly the crosswalk records that carry it (and no
entry at all when no record does); empty keys are never counted. -/
theorem family_counts (rows : List Row) (k : String) (hk : k ≠ "") :
    famEntries (buildTables rows).2.2 k =
      (if countKeyCW (buildTables rows).1 k = 0 then []
       else [(k, countKeyCW (buildTables rows).1 k)]) ∧
    famEntries (buildTables rows).2.2 "" = [] :=
  ⟨buildAux_familyInv rows [] [] [] k hk (by simp [famEntries, countKeyCW]),
   buildAux_noEmptyKey rows [] [] [] rfl⟩

/-- Witness for C8 on a two-row batch from two source files. -/
theorem family_counts_witness :
    ("sicilian-defense" : String) ≠ "" ∧
    (famEntries (buildTables [⟨"Sicilian Defense", "", "", "", "a"⟩,
        ⟨"Sicilian, Najdorf", "", "", "", "b"⟩]).2.2 "sicilian-defense" =
      (if countKeyCW (buildTables [⟨"Sicilian Defense", "", "", "", "a"⟩,
          ⟨"Sicilian, Najdorf", "", "", "", "b"⟩]).1 "sicilian-defense" = 0 then []
       else [("sicilian-defense",
          countKeyCW (buildTables [⟨"Sicilian Defense", "", "", "", "a"⟩,
            ⟨"Sicilian, Najdorf", "", "", "", "b"⟩]).1 "sicilian-defense")]) ∧
     famEntries (buildTables [⟨"Sicilian Defense", "", "", "", "a"⟩,
        ⟨"Sicilian, Najdorf", "", "", "", "b"⟩]).2.2 "" = []) :=
  ⟨by decide,
   family_counts [⟨"Sicilian Defense", "", "", "", "a"⟩,
     ⟨"Sicilian, Najdorf", "", "", "", "b"⟩] "sicilian-defense" (by decide)⟩

/-- C9: the hint-slug computation maps the curly-apostrophe and
straight-apostrophe spellings of "Queen's Gambit" to the same slug
`queens-gambit`. -/
theorem slug_unicode_stable :
    slugify_hint "Queen’s Gambit" = "queens-gambit" ∧
    slugify_hint "Queen's Gambit" = "queens-gambit" := by decide

/-- C10: for every record the notes field is the literal
"inferred staunton under dutch" exactly when the lowercased name contains the
words "dutch" and "staunton", and empty otherwise — independently of the
resolution tier, including when the hint tier resolved the family (as in the
concrete hint-resolved record below). -/
theorem notes_dutch_staunton :
    (∀ r : Row, (processRow r).1.notes =
      (if reSearch [wd "dutch"] (r.name.data.map pyLower) &&
          reSearch [wd "staunton"] (r.name.data.map pyLower) then
        "inferred staunton under dutch"
      else "")) ∧
    (processRow ⟨"Dutch Staunton Attack", "", "", "Sicilian", "f"⟩).1.canonical_family_key =
      "sicilian" ∧
    (processRow ⟨"Dutch Staunton Attack", "", "", "Sicilian", "f"⟩).1.notes =
      "inferred staunton under dutch" :=
  ⟨fun _ => rfl, by decide, by decide⟩

end Crosswalk
